import Mathlib

set_option maxHeartbeats 1000000

namespace EtcdStore

/-- Time instants are modelled as integer nanoseconds since the Unix epoch,
mirroring the wall-clock reading of a Go time.Time value.  Go's Equal becomes
integer equality, Sub becomes subtraction, and comparisons of durations keep
their sign (Go's saturating Sub preserves the sign of the true difference, so
the comparisons against 0 and one second that the source makes are exact in
this model). -/
abbrev Time := Int

/-- PERMANENT mirrors the sentinel time.Unix(0, 0): the epoch-zero instant
marks a node that never expires. -/
def PERMANENT : Time := 0

/-- second is the number of nanoseconds in one Go time.Second. -/
def second : Int := 1000000000

/-- ERROR mirrors the action-code constant -1 of the source. -/
def ERROR : Int := -1

/-- SET mirrors the action-code constant 0 of the source. -/
def SET : Int := 0

/-- DELETE mirrors the action-code constant 1 of the source. -/
def DELETE : Int := 1

/-- GET mirrors the action-code constant 2 of the source. -/
def GET : Int := 2

/-- dd is the two-character path segment of two dots. -/
def dd : List Char := ['.', '.']

/-- splitAux cs acc splits cs at slash characters; acc holds the reversed
characters of the segment currently being read.  Modelled from the spec: the
store normalizes keys with the Go standard library function path.Clean, whose
source is not part of this repository; splitAux and the definitions below
implement the documented segment rules of path.Clean (collapse repeated
slashes, drop single-dot segments, resolve dot-dot segments, root handling). -/
def splitAux : List Char → List Char → List (List Char)
  | [], acc => [acc.reverse]
  | c :: rest, acc =>
      if c = '/' then acc.reverse :: splitAux rest []
      else splitAux rest (c :: acc)

/-- splitSl splits a character list at slash characters. -/
def splitSl (cs : List Char) : List (List Char) := splitAux cs []

/-- isSegB keeps the path segments that path.Clean does not discard outright:
the nonempty ones other than a single dot. -/
def isSegB (s : List Char) : Bool := decide (s ≠ []) && decide (s ≠ ['.'])

/-- segsOf lists the retained raw segments of a path. -/
def segsOf (cs : List Char) : List (List Char) := (splitSl cs).filter isSegB

/-- pushSeg performs one step of path.Clean's segment resolution over a stack
of output segments (stored top first): an ordinary segment is pushed; a
dot-dot segment pops the previous segment, except that at the root it is
dropped and in a relative path with nothing left to pop it accumulates. -/
def pushSeg (rooted : Bool) (acc : List (List Char)) (s : List Char) : List (List Char) :=
  if s = dd then
    match acc with
    | [] => if rooted then [] else [dd]
    | t :: acc' => if t = dd then s :: t :: acc' else acc'
  else s :: acc

/-- resolveSegs resolves a whole segment list, returning the output segments
in order. -/
def resolveSegs (rooted : Bool) (segs : List (List Char)) : List (List Char) :=
  (segs.foldl (pushSeg rooted) []).reverse

/-- joinSl joins segments with single slashes. -/
def joinSl : List (List Char) → List Char
  | [] => []
  | [s] => s
  | s :: rest => s ++ '/' :: joinSl rest

/-- isRooted tests whether a path starts with a slash. -/
def isRooted (cs : List Char) : Bool :=
  match cs with
  | c :: _ => c = '/'
  | [] => false

/-- cleanChars is path.Clean on character lists: empty input cleans to a dot,
otherwise the retained segments are resolved and rejoined, a rooted path keeps
its leading slash, and an emptied relative path becomes a dot. -/
def cleanChars (cs : List Char) : List Char :=
  if cs = [] then ['.']
  else
    let rooted := isRooted cs
    let out := resolveSegs rooted (segsOf cs)
    if rooted then '/' :: joinSl out
    else if out = [] then ['.'] else joinSl out

/-- pathClean models path.Clean on strings. -/
def pathClean (s : String) : String := String.mk (cleanChars s.data)

/-- Node mirrors the stored record: Value and ExpireTime.  The runtime-only
update channel (json tag dash, never serialized) carries no state of its own;
creating a channel together with its goroutine and signalling on it are
modelled as events in the operation traces. -/
structure Node where
  value : String
  expireTime : Time
deriving DecidableEq

/-- Response mirrors the response envelope struct field for field; Index, a Go
uint64 that is never used arithmetically, is a Nat. -/
structure Response where
  action : Int
  key : String
  oldValue : String
  newValue : String
  exist : Bool
  expiration : Time
  index : Nat
deriving DecidableEq

/-- Store holds the key-to-node map, rendered as an association list with
unique keys standing for the Go hash map, and whether a messager channel is
registered (whether s.messager is non-nil). -/
structure Store where
  nodes : List (String × Node)
  messager : Bool
deriving DecidableEq

/-- createStore mirrors createStore composed with init: an empty map and no
messager. -/
def createStore : Store := ⟨[], false⟩

/-- lookupN is Go map lookup on the association list. -/
def lookupN : List (String × Node) → String → Option Node
  | [], _ => none
  | kn :: rest, k => if kn.1 = k then some kn.2 else lookupN rest k

/-- insertN is Go map assignment: replace the entry of the key if present,
otherwise add one. -/
def insertN : List (String × Node) → String → Node → List (String × Node)
  | [], k, n => [(k, n)]
  | kn :: rest, k, n => if kn.1 = k then (k, n) :: rest else kn :: insertN rest k n

/-- eraseN is Go map delete. -/
def eraseN : List (String × Node) → String → List (String × Node)
  | [], _ => []
  | kn :: rest, k => if kn.1 = k then eraseN rest k else kn :: eraseN rest k

/-- keysOf lists the keys of the association list. -/
def keysOf (m : List (String × Node)) : List String := m.map Prod.fst

/-- Event records one externally observable side effect of an operation, in
program order: invoking the watch hook notify with an envelope, forwarding the
serialized envelope to the messager channel, sending an instant on a node's
update channel, and starting an expire goroutine for a key (which is always
paired in the source with creating a fresh update channel for it). -/
inductive Event
  | notify (resp : Response)
  | send (resp : Response)
  | signal (key : String) (t : Time)
  | spawn (key : String) (t : Time)
deriving DecidableEq

/-- timeMarshalOk models when encoding/json can marshal a time.Time: its
MarshalJSON fails exactly when the year lies outside 0 through 9999, which in
nanoseconds since the epoch is the interval below. -/
def timeMarshalOk (t : Time) : Bool :=
  decide (-62167219200000000000 ≤ t) && decide (t < 253402300800000000000)

/-- marshalOk models when json.Marshal succeeds on an envelope: every field of
Response always encodes except the time.Time expiration. -/
def marshalOk (resp : Response) : Bool := timeMarshalOk resp.expiration

/-- OpResult bundles what one mutating call produces: the new store, the trace
of side effects in program order, the envelope the call constructed, and
whether json.Marshal succeeded on it.  The Go call returns the serialized
envelope bytes and a nil error exactly when ok is true; the bytes are
represented by resp itself, the encoding being injective. -/
structure OpResult where
  store : Store
  events : List Event
  resp : Response
  ok : Bool
deriving DecidableEq

/-- finishMut models the tail every mutating branch of the source repeats:
marshal the envelope, call notify with it, and forward the serialized text to
the messager when one is registered and marshalling succeeded. -/
def finishMut (st : Store) (pre : List Event) (resp : Response) : OpResult :=
  ⟨st,
   pre ++ [Event.notify resp] ++
     (if st.messager && marshalOk resp then [Event.send resp] else []),
   resp, marshalOk resp⟩

/-- Delete mirrors the source Delete: clean the key; when the key is present,
signal its expire task with PERMANENT if the node is volatile, remove the
entry, and emit a DELETE envelope carrying the old value and the old
expiration; when absent, only marshal an exist false DELETE envelope with the
epoch-zero expiration, notifying nobody. -/
def Delete (key : String) (index : Nat) (st : Store) : OpResult :=
  let k := pathClean key
  match lookupN st.nodes k with
  | some node =>
      finishMut ⟨eraseN st.nodes k, st.messager⟩
        (if node.expireTime = PERMANENT then [] else [Event.signal k PERMANENT])
        ⟨DELETE, k, node.value, "", true, node.expireTime, index⟩
  | none =>
      ⟨st, [], ⟨DELETE, k, "", "", false, PERMANENT, index⟩,
       marshalOk ⟨DELETE, k, "", "", false, PERMANENT, index⟩⟩

/-- Set mirrors the source Set: clean the key; a non-permanent expiration that
is already past degrades to Delete of the cleaned key with the same index.
Otherwise an existing volatile node is rescheduled by a signal on its update
channel, an existing permanent node that becomes volatile gets a fresh channel
and goroutine, the map entry is replaced, and a SET envelope with the old
value and existence flag is emitted; a missing key gets a fresh entry (and a
goroutine when volatile) and an exist false SET envelope. -/
def Set (key value : String) (expireTime : Time) (index : Nat) (now : Time) (st : Store) : OpResult :=
  let k := pathClean key
  if expireTime ≠ PERMANENT ∧ expireTime - now < 0 then
    Delete k index st
  else
    match lookupN st.nodes k with
    | some node =>
        finishMut ⟨insertN st.nodes k ⟨value, expireTime⟩, st.messager⟩
          (if node.expireTime ≠ PERMANENT then [Event.signal k expireTime]
           else if expireTime ≠ PERMANENT then [Event.spawn k expireTime] else [])
          ⟨SET, k, node.value, value, true, expireTime, index⟩
    | none =>
        finishMut ⟨insertN st.nodes k ⟨value, expireTime⟩, st.messager⟩
          (if expireTime ≠ PERMANENT then [Event.spawn k expireTime] else [])
          ⟨SET, k, "", value, false, expireTime, index⟩

/-- expireFired models the timer-elapsed branch of the expire goroutine body:
look the key up (it arrives already cleaned from whoever spawned the
goroutine); if it is gone a racing delete won and nothing happens, otherwise
the entry is removed and a DELETE envelope with the node's stored expiration
and index 0 is emitted.  The reschedule branch of the goroutine's select loop
is represented in the traces of Set and Delete by signal events. -/
def expireFired (key : String) (st : Store) : Store × List Event :=
  match lookupN st.nodes key with
  | none => (st, [])
  | some node =>
      let r := finishMut ⟨eraseN st.nodes key, st.messager⟩ []
        ⟨DELETE, key, node.value, "", true, node.expireTime, 0⟩
      (r.store, r.events)

/-- Get mirrors the source Get: clean the key and read the map; a present key
reports its value twice together with its stored expiration, an absent key
reports empty values with the epoch-zero expiration; the index is always 0 and
nothing is mutated or notified (the Go function returns only a Response). -/
def Get (key : String) (st : Store) : Response :=
  let k := pathClean key
  match lookupN st.nodes k with
  | some node => ⟨GET, k, node.value, node.value, true, node.expireTime, 0⟩
  | none => ⟨GET, k, "", "", false, PERMANENT, 0⟩

/-- Save mirrors the source Save: json.Marshal of the store marshals its nodes
map (the unexported messager pointer is never serialized); it fails exactly
when some node's expiration cannot be marshalled, and on success the snapshot
is the list of key, value and expiration entries. -/
def Save (st : Store) : Except Unit (List (String × Node)) :=
  if st.nodes.all (fun kn => timeMarshalOk kn.2.expireTime) then .ok st.nodes
  else .error ()

/-- keepNode is the survival test of clean at instant now: a permanent node is
kept untouched, a volatile node only when at least one second remains before
its expiration. -/
def keepNode (now : Time) (n : Node) : Bool :=
  decide (n.expireTime = PERMANENT) || decide (second ≤ n.expireTime - now)

/-- clean mirrors the source clean: every volatile node with less than one
second left is deleted from the map; every other volatile node gets a fresh
update channel and a new expire goroutine for its stored expiration; permanent
nodes are skipped.  The model reads the clock once where the source calls
time.Now() per node. -/
def clean (now : Time) (st : Store) : Store × List Event :=
  (⟨st.nodes.filter (fun kn => keepNode now kn.2), st.messager⟩,
   (st.nodes.filter
      (fun kn => decide (kn.2.expireTime ≠ PERMANENT) && keepNode now kn.2)).map
     (fun kn => Event.spawn kn.1 kn.2.expireTime))

/-- Recovery mirrors the source Recovery on a well-formed snapshot:
json.Unmarshal into the store's always non-nil nodes map keeps the entries
already present and stores the snapshot's entries over them (the documented
behaviour of encoding/json when unmarshalling an object into a non-nil map),
after which clean runs at the current instant. -/
def Recovery (snap : List (String × Node)) (now : Time) (st : Store) : Store × List Event :=
  clean now ⟨snap.foldl (fun m kn => insertN m kn.1 kn.2) st.nodes, st.messager⟩

/-- isNotifyEv tests for a watch-hook invocation event. -/
def isNotifyEv : Event → Bool
  | Event.notify _ => true
  | _ => false

/-- isSendEv tests for a messager forwarding event. -/
def isSendEv : Event → Bool
  | Event.send _ => true
  | _ => false

/-- notifyCount counts watch-hook invocations in a trace. -/
def notifyCount (evs : List Event) : Nat := evs.countP isNotifyEv

/-- sendCount counts messager forwardings in a trace. -/
def sendCount (evs : List Event) : Nat := evs.countP isSendEv

/-- mergeSnap is the map json.Unmarshal produces inside Recovery: the
snapshot's entries stored over the existing map. -/
def mergeSnap (m snap : List (String × Node)) : List (String × Node) :=
  snap.foldl (fun m kn => insertN m kn.1 kn.2) m

/-- goodSeg describes the segments path.Clean can output: nonempty, not a
single dot, slash free. -/
def goodSeg (s : List Char) : Prop := s ≠ [] ∧ s ≠ ['.'] ∧ '/' ∉ s

/-- wStorePB is a small concrete store used by witnesses: one permanent and
one volatile node, with a messager registered. -/
def wStorePB : Store := ⟨[("/p", ⟨"pv", PERMANENT⟩), ("/b", ⟨"bv", 5000000000⟩)], true⟩

/-- cexStoreShort holds a single volatile node with half a second of life
left at instant 0, used to exhibit the cleanup threshold. -/
def cexStoreShort : Store := ⟨[("/a", ⟨"v", 500000000⟩)], false⟩

/-- preStoreOld holds one permanent node under a key no snapshot mentions. -/
def preStoreOld : Store := ⟨[("/old", ⟨"x", PERMANENT⟩)], false⟩

/-- snapNew is a snapshot containing a single permanent node. -/
def snapNew : List (String × Node) := [("/new", ⟨"y", PERMANENT⟩)]

/-- cexStoreVol holds a single volatile node, used to inspect DELETE
envelopes. -/
def cexStoreVol : Store := ⟨[("/a", ⟨"v", 5000000000⟩)], false⟩

/-- mStoreEmpty is an empty store with a messager registered. -/
def mStoreEmpty : Store := ⟨[], true⟩

/-- farFuture is an expiration instant beyond the year 9999, which
encoding/json cannot marshal. -/
def farFuture : Time := 300000000000000000000

theorem lookupN_eq_none_of_not_mem (m : List (String × Node)) (k : String)
    (h : k ∉ keysOf m) : lookupN m k = none := by
  induction m with
  | nil => rfl
  | cons kn rest ih =>
      simp only [keysOf, List.map_cons, List.mem_cons, not_or] at h
      have h1 : ¬ kn.1 = k := fun hh => h.1 hh.symm
      simp only [lookupN, if_neg h1]
      exact ih h.2

theorem lookupN_eraseN (m : List (String × Node)) (k k' : String) :
    lookupN (eraseN m k) k' = if k' = k then none else lookupN m k' := by
  induction m with
  | nil => simp [eraseN, lookupN]
  | cons kn rest ih =>
      by_cases h1 : kn.1 = k
      · by_cases h2 : k' = k
        · simp only [eraseN, if_pos h1, ih, if_pos h2]
        · have h3 : ¬ kn.1 = k' := by
            rw [h1]; exact fun hh => h2 hh.symm
          simp only [eraseN, if_pos h1, ih, if_neg h2, lookupN, if_neg h3]
      · by_cases h2 : kn.1 = k'
        · have h3 : ¬ k' = k := by
            rw [← h2]; exact fun hh => h1 hh
          simp only [eraseN, if_neg h1, lookupN, if_pos h2, if_neg h3]
        · simp only [eraseN, if_neg h1, lookupN, if_neg h2, ih]

theorem lookupN_insertN (m : List (String × Node)) (k k' : String) (n : Node) :
    lookupN (insertN m k n) k' = if k' = k then some n else lookupN m k' := by
  induction m with
  | nil =>
      by_cases h : k' = k
      · have h2 : k = k' := h.symm
        simp only [insertN, lookupN, if_pos h2, if_pos h]
      · have h2 : ¬ k = k' := fun hh => h hh.symm
        simp only [insertN, lookupN, if_neg h2, if_pos rfl, if_neg h]
  | cons kn rest ih =>
      by_cases h1 : kn.1 = k
      · by_cases h2 : k' = k
        · have h3 : k = k' := h2.symm
          simp only [insertN, if_pos h1, lookupN, if_pos h3, if_pos h2]
        · have h3 : ¬ k = k' := fun hh => h2 hh.symm
          have h4 : ¬ kn.1 = k' := by
            rw [h1]; exact h3
          simp only [insertN, if_pos h1, lookupN, if_neg h3, if_neg h2, if_neg h4]
      · by_cases h2 : kn.1 = k'
        · have h3 : ¬ k' = k := by
            rw [← h2]; exact fun hh => h1 hh
          simp only [insertN, if_neg h1, lookupN, if_pos h2, if_neg h3]
        · simp only [insertN, if_neg h1, lookupN, if_neg h2, ih]

theorem keysOf_cons (kn : String × Node) (rest : List (String × Node)) :
    keysOf (kn :: rest) = kn.1 :: keysOf rest := rfl

theorem insertN_of_not_mem (m : List (String × Node)) (k : String) (n : Node)
    (h : k ∉ keysOf m) : insertN m k n = m ++ [(k, n)] := by
  induction m with
  | nil => rfl
  | cons kn rest ih =>
      simp only [keysOf, List.map_cons, List.mem_cons, not_or] at h
      have h1 : ¬ kn.1 = k := fun hh => h.1 hh.symm
      simp only [insertN, if_neg h1, List.cons_append, ih h.2]

theorem keysOf_insertN (m : List (String × Node)) (k : String) (n : Node) :
    keysOf (insertN m k n) = if k ∈ keysOf m then keysOf m else keysOf m ++ [k] := by
  induction m with
  | nil => simp [insertN, keysOf]
  | cons kn rest ih =>
      by_cases h1 : kn.1 = k
      · have hmem : k ∈ keysOf (kn :: rest) := by
          rw [keysOf_cons]
          exact List.mem_cons.mpr (Or.inl h1.symm)
        rw [if_pos hmem]
        simp only [insertN, if_pos h1, keysOf_cons]
        show k :: keysOf rest = kn.1 :: keysOf rest
        rw [h1]
      · have h1' : ¬ k = kn.1 := fun hh => h1 hh.symm
        by_cases h2 : k ∈ keysOf rest
        · have hmem : k ∈ keysOf (kn :: rest) := by
            rw [keysOf_cons]
            exact List.mem_cons.mpr (Or.inr h2)
          rw [if_pos hmem]
          simp only [insertN, if_neg h1, keysOf_cons, ih, if_pos h2]
        · have hmem : k ∉ keysOf (kn :: rest) := by
            rw [keysOf_cons]
            simp only [List.mem_cons, not_or]
            exact ⟨h1', h2⟩
          rw [if_neg hmem]
          simp only [insertN, if_neg h1, keysOf_cons, ih, if_neg h2, List.cons_append]

theorem nodupKeys_insertN (m : List (String × Node)) (k : String) (n : Node)
    (h : (keysOf m).Nodup) : (keysOf (insertN m k n)).Nodup := by
  rw [keysOf_insertN]
  by_cases hm : k ∈ keysOf m
  · simpa [hm]
  · simpa [hm, List.nodup_append] using h

theorem lookupN_mergeSnap_not_mem (snap m : List (String × Node)) (k : String)
    (h : k ∉ keysOf snap) : lookupN (mergeSnap m snap) k = lookupN m k := by
  induction snap generalizing m with
  | nil => rfl
  | cons kn rest ih =>
      simp only [keysOf, List.map_cons, List.mem_cons, not_or] at h
      have step : mergeSnap m (kn :: rest) = mergeSnap (insertN m kn.1 kn.2) rest := rfl
      rw [step, ih (insertN m kn.1 kn.2) h.2, lookupN_insertN,
          if_neg (fun hh => h.1 hh)]

theorem lookupN_mergeSnap (snap m : List (String × Node)) (k : String)
    (h : (keysOf snap).Nodup) :
    lookupN (mergeSnap m snap) k =
      match lookupN snap k with
      | some n => some n
      | none => lookupN m k := by
  induction snap generalizing m with
  | nil => rfl
  | cons kn rest ih =>
      simp only [keysOf, List.map_cons, List.nodup_cons] at h
      have step : mergeSnap m (kn :: rest) = mergeSnap (insertN m kn.1 kn.2) rest := rfl
      by_cases hk : kn.1 = k
      · have hnm : k ∉ keysOf rest := hk ▸ h.1
        rw [step, lookupN_mergeSnap_not_mem rest _ k hnm, lookupN_insertN,
            if_pos hk.symm]
        simp [lookupN, hk]
      · rw [step, ih (insertN m kn.1 kn.2) h.2]
        simp only [lookupN, if_neg hk]
        cases lookupN rest k with
        | none =>
            have h4 : ¬ k = kn.1 := fun hh => hk hh.symm
            simp [lookupN_insertN, h4]
        | some n => rfl

theorem nodupKeys_mergeSnap (snap m : List (String × Node))
    (h : (keysOf m).Nodup) : (keysOf (mergeSnap m snap)).Nodup := by
  induction snap generalizing m with
  | nil => exact h
  | cons kn rest ih => exact ih (insertN m kn.1 kn.2) (nodupKeys_insertN m kn.1 kn.2 h)

theorem mergeSnap_nil_left (snap : List (String × Node))
    (h : (keysOf snap).Nodup) : mergeSnap [] snap = snap := by
  have general : ∀ l acc, (keysOf l).Nodup → (∀ a ∈ keysOf l, a ∉ keysOf acc) →
      mergeSnap acc l = acc ++ l := by
    intro l
    induction l with
    | nil => intro acc _ _; simp [mergeSnap]
    | cons kn rest ih =>
        intro acc hnd hdisj
        simp only [keysOf, List.map_cons, List.nodup_cons] at hnd
        have hk : kn.1 ∉ keysOf acc := hdisj kn.1 (by simp [keysOf])
        have step : mergeSnap acc (kn :: rest) = mergeSnap (insertN acc kn.1 kn.2) rest := rfl
        rw [step, insertN_of_not_mem acc kn.1 kn.2 hk]
        rw [ih (acc ++ [(kn.1, kn.2)]) hnd.2]
        · simp
        · intro a ha
          simp only [keysOf, List.map_append] at ha ⊢
          simp only [List.mem_append]
          rintro (h1 | h2)
          · exact hdisj a (by simp [keysOf, ha]) h1
          · simp only [keysOf, List.map_cons, List.map_nil, List.mem_cons] at h2
            rcases h2 with h2 | h2
            · exact hnd.1 (h2 ▸ ha)
            · simp at h2
  simpa using general snap [] h (by simp [keysOf])

theorem goodSeg_dd : goodSeg dd := by
  refine ⟨by decide, by decide, by decide⟩

theorem pushSeg_dd_nil (rooted : Bool) :
    pushSeg rooted [] dd = if rooted then [] else [dd] := by
  simp [pushSeg]

theorem pushSeg_dd_cons (rooted : Bool) (u : List Char) (acc' : List (List Char)) :
    pushSeg rooted (u :: acc') dd = if u = dd then dd :: u :: acc' else acc' := by
  simp [pushSeg]

theorem pushSeg_ne (rooted : Bool) (acc : List (List Char)) (s : List Char)
    (h : ¬ s = dd) : pushSeg rooted acc s = s :: acc := by
  simp [pushSeg, h]

theorem isSegB_of_good (s : List Char) (h : goodSeg s) : isSegB s = true := by
  simp [isSegB, h.1, h.2.1]

theorem splitAux_no_slash (cs : List Char) : ∀ acc, '/' ∉ acc →
    ∀ s ∈ splitAux cs acc, '/' ∉ s := by
  induction cs with
  | nil =>
      intro acc hacc s hs
      simp only [splitAux, List.mem_singleton] at hs
      subst hs
      simpa using hacc
  | cons c rest ih =>
      intro acc hacc s hs
      by_cases hc : c = '/'
      · simp only [splitAux, if_pos hc] at hs
        rcases List.mem_cons.mp hs with h | h
        · subst h; simpa using hacc
        · exact ih [] (by simp) s h
      · simp only [splitAux, if_neg hc] at hs
        refine ih (c :: acc) ?_ s hs
        intro hm
        rcases List.mem_cons.mp hm with h | h
        · exact hc h.symm
        · exact hacc h

theorem segsOf_good (cs : List Char) : ∀ s ∈ segsOf cs, goodSeg s := by
  intro s hs
  have h1 := List.mem_of_mem_filter hs
  have h2 := List.of_mem_filter hs
  simp only [isSegB, Bool.and_eq_true, decide_eq_true_eq] at h2
  exact ⟨h2.1, h2.2, splitAux_no_slash cs [] (by simp) s h1⟩

theorem splitAux_append (s : List Char) (r : List Char) : ∀ acc, '/' ∉ s →
    splitAux (s ++ r) acc = splitAux r (s.reverse ++ acc) := by
  induction s with
  | nil => intro acc _; simp
  | cons c s' ih =>
      intro acc hs
      simp only [List.mem_cons, not_or] at hs
      have hc : ¬ c = '/' := fun hh => hs.1 hh.symm
      simp only [List.cons_append, splitAux, if_neg hc]
      refine (ih (c :: acc) hs.2).trans ?_
      congr 1
      simp

theorem splitSl_joinSl (out : List (List Char)) : (∀ s ∈ out, '/' ∉ s) → out ≠ [] →
    splitSl (joinSl out) = out := by
  induction out with
  | nil => intro _ hne; exact absurd rfl hne
  | cons s rest ih =>
      intro h _
      have hs : '/' ∉ s := h s (List.mem_cons_self s rest)
      cases rest with
      | nil =>
          have h2 := splitAux_append s [] [] hs
          simpa [splitSl, joinSl, splitAux] using h2
      | cons s2 rest2 =>
          have hrest : ∀ t ∈ s2 :: rest2, '/' ∉ t := fun t ht => h t (List.mem_cons_of_mem s ht)
          show splitAux (joinSl (s :: s2 :: rest2)) [] = s :: s2 :: rest2
          rw [show joinSl (s :: s2 :: rest2) = s ++ '/' :: joinSl (s2 :: rest2) from rfl]
          rw [splitAux_append s _ [] hs]
          simp only [splitAux, if_pos rfl]
          rw [show splitAux (joinSl (s2 :: rest2)) [] = splitSl (joinSl (s2 :: rest2)) from rfl]
          rw [ih hrest (by simp)]
          simp

theorem segsOf_joinSl (out : List (List Char)) (h : ∀ s ∈ out, goodSeg s) (hne : out ≠ []) :
    segsOf (joinSl out) = out := by
  unfold segsOf
  rw [splitSl_joinSl out (fun s hs => (h s hs).2.2) hne]
  exact List.filter_eq_self.mpr (fun s hs => isSegB_of_good s (h s hs))

theorem segsOf_slash_cons (x : List Char) : segsOf ('/' :: x) = segsOf x := by
  unfold segsOf splitSl
  simp only [splitAux, if_pos rfl, List.reverse_nil]
  simp [List.filter_cons, isSegB]

theorem foldl_pushSeg_good (rooted : Bool) (segs : List (List Char)) :
    ∀ acc, (∀ s ∈ segs, goodSeg s) → (∀ s ∈ acc, goodSeg s) →
      ∀ s ∈ segs.foldl (pushSeg rooted) acc, goodSeg s := by
  induction segs with
  | nil => intro acc _ hacc s hs; exact hacc s hs
  | cons a segs' ih =>
      intro acc hsegs hacc s hs
      simp only [List.foldl_cons] at hs
      refine ih (pushSeg rooted acc a) (fun t ht => hsegs t (List.mem_cons_of_mem a ht)) ?_ s hs
      intro t ht
      have ha : goodSeg a := hsegs a (List.mem_cons_self a segs')
      by_cases hdd : a = dd
      · subst hdd
        cases acc with
        | nil =>
            rw [pushSeg_dd_nil] at ht
            cases rooted with
            | false =>
                simp only [if_neg Bool.false_ne_true] at ht
                rw [List.mem_singleton.mp ht]
                exact goodSeg_dd
            | true => simp at ht
        | cons u acc' =>
            rw [pushSeg_dd_cons] at ht
            by_cases hu : u = dd
            · rw [if_pos hu] at ht
              rcases List.mem_cons.mp ht with h | h
              · rw [h]; exact goodSeg_dd
              · rcases List.mem_cons.mp h with h2 | h2
                · rw [h2, hu]; exact goodSeg_dd
                · exact hacc t (List.mem_cons_of_mem u h2)
            · rw [if_neg hu] at ht
              exact hacc t (List.mem_cons_of_mem u ht)
      · rw [pushSeg_ne rooted acc a hdd] at ht
        rcases List.mem_cons.mp ht with h | h
        · rw [h]; exact ha
        · exact hacc t h

theorem resolveSegs_good (rooted : Bool) (segs : List (List Char))
    (hsegs : ∀ s ∈ segs, goodSeg s) : ∀ s ∈ resolveSegs rooted segs, goodSeg s := by
  intro s hs
  exact foldl_pushSeg_good rooted segs [] hsegs (by simp) s (List.mem_reverse.mp hs)

theorem foldl_pushSeg_rooted_noDD (segs : List (List Char)) :
    ∀ acc, dd ∉ acc → dd ∉ segs.foldl (pushSeg true) acc := by
  induction segs with
  | nil => intro acc h; exact h
  | cons a segs' ih =>
      intro acc h
      simp only [List.foldl_cons]
      apply ih
      by_cases hdd : a = dd
      · subst hdd
        cases acc with
        | nil => rw [pushSeg_dd_nil]; simp
        | cons u acc' =>
            by_cases hu : u = dd
            · exact absurd (List.mem_cons.mpr (Or.inl hu.symm)) h
            · rw [pushSeg_dd_cons, if_neg hu]
              exact fun hmem => h (List.mem_cons_of_mem u hmem)
      · rw [pushSeg_ne true acc a hdd]
        intro hmem
        rcases List.mem_cons.mp hmem with h1 | h1
        · exact hdd h1.symm
        · exact h h1

theorem resolveSegs_rooted_noDD (segs : List (List Char)) : dd ∉ resolveSegs true segs := by
  intro h
  exact foldl_pushSeg_rooted_noDD segs [] (by simp) (List.mem_reverse.mp h)

theorem foldl_pushSeg_noDD (l : List (List Char)) :
    ∀ (rooted : Bool) (acc : List (List Char)), dd ∉ l →
      l.foldl (pushSeg rooted) acc = l.reverse ++ acc := by
  induction l with
  | nil => intro rooted acc _; simp
  | cons a l' ih =>
      intro rooted acc h
      have ha : ¬ a = dd := fun hh => h (List.mem_cons.mpr (Or.inl hh.symm))
      simp only [List.foldl_cons, pushSeg_ne rooted acc a ha]
      rw [ih rooted (a :: acc) (fun hm => h (List.mem_cons_of_mem a hm))]
      simp

theorem resolveSegs_noDD (rooted : Bool) (l : List (List Char)) (h : dd ∉ l) :
    resolveSegs rooted l = l := by
  unfold resolveSegs
  rw [foldl_pushSeg_noDD l rooted [] h]
  simp

theorem foldl_pushSeg_dds (M : Nat) (rest : List (List Char)) (hrest : dd ∉ rest) :
    ∀ k : Nat, (List.replicate M dd ++ rest).foldl (pushSeg false) (List.replicate k dd) =
      rest.reverse ++ List.replicate (k + M) dd := by
  induction M with
  | zero =>
      intro k
      simp only [List.replicate_zero, List.nil_append, Nat.add_zero]
      rw [foldl_pushSeg_noDD rest false (List.replicate k dd) hrest]
  | succ M' ih =>
      intro k
      have hstep : pushSeg false (List.replicate k dd) dd = List.replicate (k + 1) dd := by
        cases k with
        | zero => simp [List.replicate_zero, List.replicate_succ, pushSeg_dd_nil]
        | succ k' => simp [List.replicate_succ, pushSeg_dd_cons]
      simp only [List.replicate_succ, List.cons_append, List.foldl_cons]
      rw [hstep, ih (k + 1)]
      have harith : k + 1 + M' = k + (M' + 1) := by omega
      rw [harith]

theorem resolveSegs_resolved_unrooted (M : Nat) (rest : List (List Char)) (h : dd ∉ rest) :
    resolveSegs false (List.replicate M dd ++ rest) = List.replicate M dd ++ rest := by
  unfold resolveSegs
  have h0 := foldl_pushSeg_dds M rest h 0
  simp only [List.replicate_zero, Nat.zero_add] at h0
  rw [h0]
  simp [List.reverse_append, List.reverse_replicate]

theorem foldl_pushSeg_shape (segs : List (List Char)) :
    ∀ front M, dd ∉ front →
      ∃ front' M', dd ∉ front' ∧
        segs.foldl (pushSeg false) (front ++ List.replicate M dd) =
          front' ++ List.replicate M' dd := by
  induction segs with
  | nil => intro front M h; exact ⟨front, M, h, by simp⟩
  | cons a segs' ih =>
      intro front M h
      simp only [List.foldl_cons]
      by_cases ha : a = dd
      · subst ha
        cases front with
        | nil =>
            cases M with
            | zero =>
                have hstep : pushSeg false (([] : List (List Char)) ++ List.replicate 0 dd) dd =
                    [] ++ List.replicate 1 dd := by
                  simp [List.replicate_zero, List.replicate_succ, pushSeg_dd_nil]
                rw [hstep]
                exact ih [] 1 (by simp)
            | succ M' =>
                have hstep : pushSeg false (([] : List (List Char)) ++ List.replicate (M' + 1) dd) dd =
                    [] ++ List.replicate (M' + 2) dd := by
                  simp [List.replicate_succ, pushSeg_dd_cons]
                rw [hstep]
                exact ih [] (M' + 2) (by simp)
        | cons u front' =>
            have hu : ¬ u = dd := fun hh => h (List.mem_cons.mpr (Or.inl hh.symm))
            have hstep : pushSeg false ((u :: front') ++ List.replicate M dd) dd =
                front' ++ List.replicate M dd := by
              simp [List.cons_append, pushSeg_dd_cons, hu]
            rw [hstep]
            exact ih front' M (fun hm => h (List.mem_cons_of_mem u hm))
      · have hstep : pushSeg false (front ++ List.replicate M dd) a =
            (a :: front) ++ List.replicate M dd := by
          simp [pushSeg_ne false _ a ha]
        rw [hstep]
        refine ih (a :: front) M ?_
        intro hm
        rcases List.mem_cons.mp hm with h1 | h1
        · exact ha h1.symm
        · exact h h1

theorem resolveSegs_unrooted_shape (segs : List (List Char)) :
    ∃ M rest, resolveSegs false segs = List.replicate M dd ++ rest ∧ dd ∉ rest := by
  obtain ⟨front, M, hf, heq⟩ := foldl_pushSeg_shape segs [] 0 (by simp)
  simp only [List.replicate_zero, List.append_nil] at heq
  refine ⟨M, front.reverse, ?_, by simpa using hf⟩
  unfold resolveSegs
  rw [heq]
  simp [List.reverse_append, List.reverse_replicate]

theorem joinSl_cons (s : List Char) (rest : List (List Char)) :
    ∃ t, joinSl (s :: rest) = s ++ t := by
  cases rest with
  | nil => exact ⟨[], by simp [joinSl]⟩
  | cons s2 r2 => exact ⟨'/' :: joinSl (s2 :: r2), rfl⟩

theorem joinSl_ne_nil (s : List Char) (rest : List (List Char)) (hs : s ≠ []) :
    joinSl (s :: rest) ≠ [] := by
  obtain ⟨t, ht⟩ := joinSl_cons s rest
  rw [ht]
  intro hh
  exact hs (List.append_eq_nil.mp hh).1

theorem isRooted_joinSl (s : List Char) (rest : List (List Char)) (hs : s ≠ [])
    (hslash : '/' ∉ s) : isRooted (joinSl (s :: rest)) = false := by
  obtain ⟨t, ht⟩ := joinSl_cons s rest
  rw [ht]
  cases s with
  | nil => exact absurd rfl hs
  | cons c s' =>
      have hc : ¬ c = '/' := fun hh => hslash (List.mem_cons.mpr (Or.inl hh.symm))
      simp [isRooted, hc]

theorem cleanChars_of_rooted (cs : List Char) (h1 : cs ≠ []) (h2 : isRooted cs = true) :
    cleanChars cs = '/' :: joinSl (resolveSegs true (segsOf cs)) := by
  unfold cleanChars
  rw [if_neg h1]
  simp [h2]

theorem cleanChars_of_unrooted_ne (cs : List Char) (h1 : cs ≠ []) (h2 : isRooted cs = false)
    (h3 : resolveSegs false (segsOf cs) ≠ []) :
    cleanChars cs = joinSl (resolveSegs false (segsOf cs)) := by
  unfold cleanChars
  rw [if_neg h1]
  simp [h2, h3]

theorem cleanChars_of_unrooted_nil (cs : List Char) (h1 : cs ≠ []) (h2 : isRooted cs = false)
    (h3 : resolveSegs false (segsOf cs) = []) :
    cleanChars cs = ['.'] := by
  unfold cleanChars
  rw [if_neg h1]
  simp [h2, h3]

theorem cleanChars_dot : cleanChars ['.'] = ['.'] := by decide

theorem cleanChars_slash : cleanChars ['/'] = ['/'] := by decide

theorem cleanChars_idem (cs : List Char) : cleanChars (cleanChars cs) = cleanChars cs := by
  by_cases hcs : cs = []
  · rw [hcs]
    show cleanChars (cleanChars []) = cleanChars []
    rw [show cleanChars [] = ['.'] from rfl, cleanChars_dot]
  · have hgoodsegs := segsOf_good cs
    cases hr : isRooted cs with
    | true =>
        have hout := resolveSegs_good true (segsOf cs) hgoodsegs
        have hnoDD := resolveSegs_rooted_noDD (segsOf cs)
        rw [cleanChars_of_rooted cs hcs hr]
        cases hout0 : resolveSegs true (segsOf cs) with
        | nil => rw [show joinSl [] = [] from rfl, cleanChars_slash]
        | cons s rest =>
            rw [hout0] at hout hnoDD
            have hne : (s :: rest : List (List Char)) ≠ [] := by simp
            have hgj : ∀ u ∈ (s :: rest : List (List Char)), goodSeg u := hout
            have hrooted2 : isRooted ('/' :: joinSl (s :: rest)) = true := by simp [isRooted]
            have hne2 : ('/' :: joinSl (s :: rest) : List Char) ≠ [] := by simp
            rw [cleanChars_of_rooted _ hne2 hrooted2, segsOf_slash_cons,
                segsOf_joinSl _ hgj hne, resolveSegs_noDD true _ hnoDD]
    | false =>
        cases hout0 : resolveSegs false (segsOf cs) with
        | nil =>
            rw [cleanChars_of_unrooted_nil cs hcs hr hout0, cleanChars_dot]
        | cons s rest =>
            have hout := resolveSegs_good false (segsOf cs) hgoodsegs
            rw [hout0] at hout
            obtain ⟨M, rest2, hshape, hnoDD2⟩ := resolveSegs_unrooted_shape (segsOf cs)
            rw [hout0] at hshape
            have hs : goodSeg s := hout s (List.mem_cons_self s rest)
            have hne : (s :: rest : List (List Char)) ≠ [] := by simp
            rw [cleanChars_of_unrooted_ne cs hcs hr (by rw [hout0]; exact hne), hout0]
            have hne2 : joinSl (s :: rest) ≠ [] := joinSl_ne_nil s rest hs.1
            have hr2 : isRooted (joinSl (s :: rest)) = false := isRooted_joinSl s rest hs.1 hs.2.2
            have hsegs2 : segsOf (joinSl (s :: rest)) = s :: rest := segsOf_joinSl _ hout hne
            have hres2 : resolveSegs false (segsOf (joinSl (s :: rest))) = s :: rest := by
              rw [hsegs2, hshape]
              exact resolveSegs_resolved_unrooted M rest2 hnoDD2
            rw [cleanChars_of_unrooted_ne _ hne2 hr2 (by rw [hres2]; exact hne), hres2]

theorem pathClean_idem (s : String) : pathClean (pathClean s) = pathClean s := by
  unfold pathClean
  rw [show (String.mk (cleanChars s.data)).data = cleanChars s.data from rfl, cleanChars_idem]

theorem lookupN_filter (m : List (String × Node)) (p : String × Node → Bool) (k : String)
    (h : (keysOf m).Nodup) :
    lookupN (m.filter p) k =
      match lookupN m k with
      | some n => if p (k, n) then some n else none
      | none => none := by
  induction m with
  | nil => rfl
  | cons kn rest ih =>
      simp only [keysOf, List.map_cons, List.nodup_cons] at h
      by_cases hk : kn.1 = k
      · have hnone : lookupN (rest.filter p) k = none := by
          apply lookupN_eq_none_of_not_mem
          intro hmem
          apply hk ▸ h.1
          simp only [keysOf, List.mem_map] at hmem ⊢
          obtain ⟨a, ha, hha⟩ := hmem
          exact ⟨a, List.mem_of_mem_filter ha, hha⟩
        have hkn : (k, kn.2) = kn := by rw [← hk]
        by_cases hp : p kn = true
        · have hp2 : p (k, kn.2) = true := by rw [hkn]; exact hp
          simp [List.filter_cons, hp, lookupN, hk, hp2]
        · have hp2 : ¬ p (k, kn.2) = true := by rw [hkn]; exact hp
          simp [List.filter_cons, hp, lookupN, hk, hp2, hnone]
      · by_cases hp : p kn
        · simp [List.filter_cons, hp, lookupN, hk, ih h.2]
        · simp [List.filter_cons, hp, lookupN, hk, ih h.2]

theorem lookupN_eq_of_mem (m : List (String × Node)) (kn : String × Node)
    (h : kn ∈ m) (hnd : (keysOf m).Nodup) : lookupN m kn.1 = some kn.2 := by
  induction m with
  | nil => simp at h
  | cons hd rest ih =>
      rw [keysOf_cons, List.nodup_cons] at hnd
      rcases List.mem_cons.mp h with h1 | h1
      · rw [h1]
        simp [lookupN]
      · have hne : ¬ hd.1 = kn.1 := by
          intro hh
          apply hnd.1
          rw [hh]
          exact List.mem_map.mpr ⟨kn, h1, rfl⟩
        simp only [lookupN, if_neg hne]
        exact ih h1 hnd.2

theorem mem_of_lookupN (m : List (String × Node)) (k : String) (n : Node)
    (h : lookupN m k = some n) : (k, n) ∈ m := by
  induction m with
  | nil => simp [lookupN] at h
  | cons hd rest ih =>
      by_cases h1 : hd.1 = k
      · simp only [lookupN, if_pos h1] at h
        have heq : (k, n) = hd := by
          rw [← h1, ← Option.some_inj.mp h]
        exact List.mem_cons.mpr (Or.inl heq)
      · simp only [lookupN, if_neg h1] at h
        exact List.mem_cons_of_mem hd (ih h)

theorem finishMut_store (st : Store) (pre : List Event) (resp : Response) :
    (finishMut st pre resp).store = st := rfl

theorem finishMut_resp (st : Store) (pre : List Event) (resp : Response) :
    (finishMut st pre resp).resp = resp := rfl

theorem finishMut_ok (st : Store) (pre : List Event) (resp : Response) :
    (finishMut st pre resp).ok = marshalOk resp := rfl

theorem finishMut_events (st : Store) (pre : List Event) (resp : Response) :
    (finishMut st pre resp).events =
      pre ++ [Event.notify resp] ++
        (if st.messager && marshalOk resp then [Event.send resp] else []) := rfl

theorem Delete_present (key : String) (index : Nat) (st : Store) (node : Node)
    (h : lookupN st.nodes (pathClean key) = some node) :
    Delete key index st =
      finishMut ⟨eraseN st.nodes (pathClean key), st.messager⟩
        (if node.expireTime = PERMANENT then []
         else [Event.signal (pathClean key) PERMANENT])
        ⟨DELETE, pathClean key, node.value, "", true, node.expireTime, index⟩ := by
  simp only [Delete, h]

theorem Delete_absent (key : String) (index : Nat) (st : Store)
    (h : lookupN st.nodes (pathClean key) = none) :
    Delete key index st =
      ⟨st, [], ⟨DELETE, pathClean key, "", "", false, PERMANENT, index⟩, true⟩ := by
  simp only [Delete, h]
  rfl

theorem Set_present (key value : String) (t : Time) (index : Nat) (now : Time)
    (st : Store) (node : Node) (hnd : ¬ (t ≠ PERMANENT ∧ t - now < 0))
    (h : lookupN st.nodes (pathClean key) = some node) :
    Set key value t index now st =
      finishMut ⟨insertN st.nodes (pathClean key) ⟨value, t⟩, st.messager⟩
        (if node.expireTime ≠ PERMANENT then [Event.signal (pathClean key) t]
         else if t ≠ PERMANENT then [Event.spawn (pathClean key) t] else [])
        ⟨SET, pathClean key, node.value, value, true, t, index⟩ := by
  simp only [Set, if_neg hnd, h]

theorem Set_absent (key value : String) (t : Time) (index : Nat) (now : Time)
    (st : Store) (hnd : ¬ (t ≠ PERMANENT ∧ t - now < 0))
    (h : lookupN st.nodes (pathClean key) = none) :
    Set key value t index now st =
      finishMut ⟨insertN st.nodes (pathClean key) ⟨value, t⟩, st.messager⟩
        (if t ≠ PERMANENT then [Event.spawn (pathClean key) t] else [])
        ⟨SET, pathClean key, "", value, false, t, index⟩ := by
  simp only [Set, if_neg hnd, h]

theorem expireFired_present (key : String) (st : Store) (node : Node)
    (h : lookupN st.nodes key = some node) :
    expireFired key st =
      ((finishMut ⟨eraseN st.nodes key, st.messager⟩ []
          ⟨DELETE, key, node.value, "", true, node.expireTime, 0⟩).store,
       (finishMut ⟨eraseN st.nodes key, st.messager⟩ []
          ⟨DELETE, key, node.value, "", true, node.expireTime, 0⟩).events) := by
  simp only [expireFired, h]

theorem expireFired_absent (key : String) (st : Store)
    (h : lookupN st.nodes key = none) : expireFired key st = (st, []) := by
  simp only [expireFired, h]

theorem notifyCount_append (a b : List Event) :
    notifyCount (a ++ b) = notifyCount a + notifyCount b := by
  simp [notifyCount, List.countP_append]

theorem sendCount_append (a b : List Event) :
    sendCount (a ++ b) = sendCount a + sendCount b := by
  simp [sendCount, List.countP_append]

theorem notifyCount_signal (k : String) (t : Time) :
    notifyCount [Event.signal k t] = 0 := rfl

theorem notifyCount_spawn (k : String) (t : Time) :
    notifyCount [Event.spawn k t] = 0 := rfl

theorem sendCount_signal (k : String) (t : Time) :
    sendCount [Event.signal k t] = 0 := rfl

theorem sendCount_spawn (k : String) (t : Time) :
    sendCount [Event.spawn k t] = 0 := rfl

theorem Get_present (key : String) (st : Store) (node : Node)
    (h : lookupN st.nodes (pathClean key) = some node) :
    Get key st = ⟨GET, pathClean key, node.value, node.value, true, node.expireTime, 0⟩ := by
  simp only [Get, h]

theorem Get_absent (key : String) (st : Store)
    (h : lookupN st.nodes (pathClean key) = none) :
    Get key st = ⟨GET, pathClean key, "", "", false, PERMANENT, 0⟩ := by
  simp only [Get, h]

theorem notifyCount_ite (c : Prop) [Decidable c] (a b : List Event)
    (ha : notifyCount a = 0) (hb : notifyCount b = 0) :
    notifyCount (if c then a else b) = 0 := by
  by_cases h : c
  · rw [if_pos h]; exact ha
  · rw [if_neg h]; exact hb

theorem sendCount_ite (c : Prop) [Decidable c] (a b : List Event)
    (ha : sendCount a = 0) (hb : sendCount b = 0) :
    sendCount (if c then a else b) = 0 := by
  by_cases h : c
  · rw [if_pos h]; exact ha
  · rw [if_neg h]; exact hb

theorem notifyCount_finishMut (st : Store) (pre : List Event) (resp : Response)
    (hpre : notifyCount pre = 0) : notifyCount (finishMut st pre resp).events = 1 := by
  rw [finishMut_events, notifyCount_append, notifyCount_append, hpre]
  cases hc : st.messager && marshalOk resp with
  | false => simp [notifyCount, isNotifyEv, List.countP_cons]
  | true => simp [notifyCount, isNotifyEv, List.countP_cons]

theorem sendCount_finishMut (st : Store) (pre : List Event) (resp : Response)
    (hpre : sendCount pre = 0) :
    sendCount (finishMut st pre resp).events =
      if st.messager && marshalOk resp then 1 else 0 := by
  rw [finishMut_events, sendCount_append, sendCount_append, hpre]
  cases hc : st.messager && marshalOk resp with
  | false => simp [hc, sendCount, isSendEv, isNotifyEv, List.countP_cons]
  | true => simp [hc, sendCount, isSendEv, isNotifyEv, List.countP_cons]

/-- C1: for every key, value and index, calling Set with a non-sentinel
expiration instant already in the past relative to now performs exactly a
Delete of that key with the same index — the very same store, event trace,
envelope and error outcome — and consequently: if the cleaned key existed the
result is a DELETE envelope with exist true and the old value, if it did not
exist the result is a well-formed DELETE envelope with exist false, and in
neither case is a node inserted. -/
theorem set_past_is_delete (key value : String) (t : Time) (index : Nat) (now : Time)
    (st : Store) (h1 : t ≠ PERMANENT) (h2 : t - now < 0) :
    Set key value t index now st = Delete key index st ∧
    (∀ node, lookupN st.nodes (pathClean key) = some node →
      (Set key value t index now st).resp =
        ⟨DELETE, pathClean key, node.value, "", true, node.expireTime, index⟩) ∧
    (lookupN st.nodes (pathClean key) = none →
      (Set key value t index now st).resp =
        ⟨DELETE, pathClean key, "", "", false, PERMANENT, index⟩ ∧
      (Set key value t index now st).ok = true ∧
      (Set key value t index now st).store = st) ∧
    (∀ k', lookupN st.nodes k' = none →
      lookupN (Set key value t index now st).store.nodes k' = none) := by
  have hdeg : Set key value t index now st = Delete key index st := by
    simp only [Set, if_pos (show t ≠ PERMANENT ∧ t - now < 0 from ⟨h1, h2⟩)]
    simp only [Delete, pathClean_idem]
  refine ⟨hdeg, ?_, ?_, ?_⟩
  · intro node hnode
    rw [hdeg, Delete_present key index st node hnode, finishMut_resp]
  · intro hnone
    rw [hdeg, Delete_absent key index st hnone]
    exact ⟨rfl, rfl, rfl⟩
  · intro k' hk'
    rw [hdeg]
    cases hl : lookupN st.nodes (pathClean key) with
    | some node =>
        rw [Delete_present key index st node hl, finishMut_store]
        show lookupN (eraseN st.nodes (pathClean key)) k' = none
        rw [lookupN_eraseN]
        by_cases hkk : k' = pathClean key
        · rw [if_pos hkk]
        · rw [if_neg hkk]
          exact hk'
    | none =>
        rw [Delete_absent key index st hl]
        exact hk'

/-- Witness for C1 at a concrete input: expiration 5 lies in the past of
instant 10 and is not the sentinel, and the degraded Set coincides with the
Delete of the same key and index. -/
theorem set_past_is_delete_witness :
    (5 : Time) ≠ PERMANENT ∧ ((5 : Time) - 10 < 0) ∧
    Set ("/b") ("nv") 5 9 10 wStorePB = Delete ("/b") 9 wStorePB := by
  refine ⟨by decide, by decide, ?_⟩
  exact (set_past_is_delete ("/b") ("nv") 5 9 10 wStorePB (by decide) (by decide)).1

/-- C7: Get never fails and never mutates or notifies — in this embedding it
is a pure function from the store to a Response — and after normalizing the
key it reports: for an absent key a GET envelope with exist false, empty old
and new values, the sentinel expiration and index 0; for a present key exist
true with the node's current value and expiration and index 0. -/
theorem get_spec (key : String) (st : Store) :
    (Get key st).action = GET ∧ (Get key st).index = 0 ∧
    Get key st = Get (pathClean key) st ∧
    (∀ node, lookupN st.nodes (pathClean key) = some node →
      Get key st = ⟨GET, pathClean key, node.value, node.value, true, node.expireTime, 0⟩) ∧
    (lookupN st.nodes (pathClean key) = none →
      Get key st = ⟨GET, pathClean key, "", "", false, PERMANENT, 0⟩) := by
  have hnorm : Get key st = Get (pathClean key) st := by
    simp only [Get, pathClean_idem]
  refine ⟨?_, ?_, hnorm, ?_, ?_⟩
  · cases hl : lookupN st.nodes (pathClean key) with
    | some node => rw [Get_present key st node hl]
    | none => rw [Get_absent key st hl]
  · cases hl : lookupN st.nodes (pathClean key) with
    | some node => rw [Get_present key st node hl]
    | none => rw [Get_absent key st hl]
  · intro node hnode
    rw [Get_present key st node hnode]
  · intro hnone
    rw [Get_absent key st hnone]

/-- Witness for C7 at a concrete input: reading the present permanent key and
an absent key of the concrete store. -/
theorem get_spec_witness :
    lookupN wStorePB.nodes (pathClean ("/p")) = some ⟨"pv", PERMANENT⟩ ∧
    Get ("/p") wStorePB = ⟨GET, "/p", "pv", "pv", true, PERMANENT, 0⟩ ∧
    lookupN wStorePB.nodes (pathClean ("/zz")) = none ∧
    Get ("/zz") wStorePB = ⟨GET, "/zz", "", "", false, PERMANENT, 0⟩ := by
  refine ⟨by decide, ?_, by decide, ?_⟩
  · exact ((get_spec ("/p") wStorePB).2.2.2.1 ⟨"pv", PERMANENT⟩ (by decide)).trans (by decide)
  · exact ((get_spec ("/zz") wStorePB).2.2.2.2 (by decide)).trans (by decide)

/-- C10: for every key present in the map, the GET envelope carries the
node's current value in both its oldValue and its newValue field — they are
always equal — rather than an empty oldValue. -/
theorem get_old_new_equal (key : String) (st : Store) (node : Node)
    (h : lookupN st.nodes (pathClean key) = some node) :
    (Get key st).oldValue = node.value ∧ (Get key st).newValue = node.value ∧
    (Get key st).oldValue = (Get key st).newValue := by
  rw [Get_present key st node h]
  exact ⟨rfl, rfl, rfl⟩

/-- Witness for C10 at a concrete input: the present key of the concrete
store yields equal old and new values. -/
theorem get_old_new_equal_witness :
    lookupN wStorePB.nodes (pathClean ("/b")) = some ⟨"bv", 5000000000⟩ ∧
    (Get ("/b") wStorePB).oldValue = "bv" ∧ (Get ("/b") wStorePB).newValue = "bv" := by
  refine ⟨by decide, ?_, ?_⟩
  · exact (get_old_new_equal ("/b") wStorePB ⟨"bv", 5000000000⟩ (by decide)).1
  · exact (get_old_new_equal ("/b") wStorePB ⟨"bv", 5000000000⟩ (by decide)).2.1

/-- C5 counterexample: deleting the present volatile key /a, whose node
expires at instant 5000000000, produces a DELETE envelope whose expiration
field is that old instant and not the permanent sentinel, even though the
node is absent after the operation — refuting the claim that every DELETE
envelope carries the sentinel. -/
theorem delete_envelope_expiration_cex :
    (Delete ("/a") 1 cexStoreVol).resp.action = DELETE ∧
    (Delete ("/a") 1 cexStoreVol).resp.expiration = 5000000000 ∧
    (5000000000 : Time) ≠ PERMANENT ∧
    lookupN (Delete ("/a") 1 cexStoreVol).store.nodes ("/a") = none := by
  refine ⟨by decide, by decide, by decide, by decide⟩

/-- C5 (amended): the expiration field of the envelope is the node's
post-operation expiration for SET and for GET (the sentinel when the key is
absent), while a DELETE envelope for a key that existed — whether from an
explicit Delete or from a scheduler-fired expiry — carries the deleted node's
pre-deletion expiration instant, which is the sentinel exactly when that node
was permanent; only the absent-key DELETE envelope always carries the
sentinel. -/
theorem envelope_expiration_amended (key value : String) (t : Time) (index : Nat)
    (now : Time) (st : Store) (node : Node) :
    (¬ (t ≠ PERMANENT ∧ t - now < 0) →
      (Set key value t index now st).resp.expiration = t) ∧
    (lookupN st.nodes (pathClean key) = some node →
      (Delete key index st).resp.expiration = node.expireTime) ∧
    (lookupN st.nodes (pathClean key) = none →
      (Delete key index st).resp.expiration = PERMANENT) ∧
    (lookupN st.nodes key = some node →
      Event.notify ⟨DELETE, key, node.value, "", true, node.expireTime, 0⟩ ∈
        (expireFired key st).2) ∧
    (lookupN st.nodes (pathClean key) = some node →
      (Get key st).expiration = node.expireTime) ∧
    (lookupN st.nodes (pathClean key) = none →
      (Get key st).expiration = PERMANENT) := by
  refine ⟨?_, ?_, ?_, ?_, ?_, ?_⟩
  · intro hnd
    cases hl : lookupN st.nodes (pathClean key) with
    | some nd => rw [Set_present key value t index now st nd hnd hl, finishMut_resp]
    | none => rw [Set_absent key value t index now st hnd hl, finishMut_resp]
  · intro hnode
    rw [Delete_present key index st node hnode, finishMut_resp]
  · intro hnone
    rw [Delete_absent key index st hnone]
  · intro hnode
    rw [expireFired_present key st node hnode, finishMut_events]
    simp
  · intro hnode
    rw [Get_present key st node hnode]
  · intro hnone
    rw [Get_absent key st hnone]

/-- Witness for C5 at a concrete input: the deletion of a present volatile
node reports that node's stored expiration instant. -/
theorem envelope_expiration_amended_witness :
    lookupN cexStoreVol.nodes (pathClean ("/a")) = some ⟨"v", 5000000000⟩ ∧
    (Delete ("/a") 2 cexStoreVol).resp.expiration = 5000000000 := by
  refine ⟨by decide, ?_⟩
  exact (envelope_expiration_amended ("/a") ("x") 0 2 0 cexStoreVol
    ⟨"v", 5000000000⟩).2.1 (by decide)

/-- C6 counterexample: deleting the absent key /a on a store with a messager
registered produces no events at all — the watch hook is not invoked and
nothing is forwarded — refuting the exactly-once claim for the absent-key
Delete case. -/
theorem delete_absent_no_notify_cex :
    (Delete ("/a") 7 mStoreEmpty).events = [] ∧
    mStoreEmpty.messager = true ∧
    notifyCount (Delete ("/a") 7 mStoreEmpty).events = 0 ∧
    sendCount (Delete ("/a") 7 mStoreEmpty).events = 0 := by
  refine ⟨by decide, rfl, by decide, by decide⟩

/-- C6 (amended): the watch hook is invoked exactly once, and the serialized
envelope forwarded exactly once when a messager is registered and marshalling
succeeded, on every Set that does not degrade to a past-expiration Delete, on
every Delete of a present key, and on every scheduler-driven expiry of a
present key; the absent-key Delete, by contrast, invokes neither the watch
hook nor the messager, and an expiry firing on an absent key does nothing. -/
theorem notify_exactly_once_amended (key value : String) (t : Time) (index : Nat)
    (now : Time) (st : Store) (node : Node) :
    (¬ (t ≠ PERMANENT ∧ t - now < 0) →
      notifyCount (Set key value t index now st).events = 1 ∧
      sendCount (Set key value t index now st).events =
        (if st.messager && (Set key value t index now st).ok then 1 else 0)) ∧
    (lookupN st.nodes (pathClean key) = some node →
      notifyCount (Delete key index st).events = 1 ∧
      sendCount (Delete key index st).events =
        (if st.messager && (Delete key index st).ok then 1 else 0)) ∧
    (lookupN st.nodes (pathClean key) = none →
      (Delete key index st).events = []) ∧
    (lookupN st.nodes key = some node →
      notifyCount (expireFired key st).2 = 1 ∧
      sendCount (expireFired key st).2 =
        (if st.messager &&
            marshalOk ⟨DELETE, key, node.value, "", true, node.expireTime, 0⟩
         then 1 else 0)) ∧
    (lookupN st.nodes key = none → (expireFired key st).2 = []) := by
  refine ⟨?_, ?_, ?_, ?_, ?_⟩
  · intro hnd
    cases hl : lookupN st.nodes (pathClean key) with
    | some nd =>
        rw [Set_present key value t index now st nd hnd hl, finishMut_ok]
        constructor
        · exact notifyCount_finishMut _ _ _
            (notifyCount_ite _ _ _ (notifyCount_signal _ _)
              (notifyCount_ite _ _ _ (notifyCount_spawn _ _) rfl))
        · exact sendCount_finishMut _ _ _
            (sendCount_ite _ _ _ (sendCount_signal _ _)
              (sendCount_ite _ _ _ (sendCount_spawn _ _) rfl))
    | none =>
        rw [Set_absent key value t index now st hnd hl, finishMut_ok]
        constructor
        · exact notifyCount_finishMut _ _ _
            (notifyCount_ite _ _ _ (notifyCount_spawn _ _) rfl)
        · exact sendCount_finishMut _ _ _
            (sendCount_ite _ _ _ (sendCount_spawn _ _) rfl)
  · intro hnode
    rw [Delete_present key index st node hnode, finishMut_ok]
    constructor
    · exact notifyCount_finishMut _ _ _
        (notifyCount_ite _ _ _ rfl (notifyCount_signal _ _))
    · exact sendCount_finishMut _ _ _
        (sendCount_ite _ _ _ rfl (sendCount_signal _ _))
  · intro hnone
    rw [Delete_absent key index st hnone]
  · intro hnode
    rw [expireFired_present key st node hnode]
    exact ⟨notifyCount_finishMut _ _ _ rfl, sendCount_finishMut _ _ _ rfl⟩
  · intro hnone
    rw [expireFired_absent key st hnone]

/-- Witness for C6 at a concrete input: a permanent Set on the concrete store
notifies exactly once, and deleting its volatile key notifies exactly once
and forwards exactly once to the registered messager. -/
theorem notify_exactly_once_amended_witness :
    ¬ ((PERMANENT : Time) ≠ PERMANENT ∧ (PERMANENT : Time) - 0 < 0) ∧
    notifyCount (Set ("/n") ("v") PERMANENT 4 0 wStorePB).events = 1 ∧
    lookupN wStorePB.nodes (pathClean ("/b")) = some ⟨"bv", 5000000000⟩ ∧
    notifyCount (Delete ("/b") 6 wStorePB).events = 1 ∧
    sendCount (Delete ("/b") 6 wStorePB).events = 1 := by
  refine ⟨by decide, ?_, by decide, ?_, ?_⟩
  · exact ((notify_exactly_once_amended ("/n") ("v") PERMANENT 4 0 wStorePB
      ⟨"v", PERMANENT⟩).1 (by decide)).1
  · exact ((notify_exactly_once_amended ("/b") ("v") PERMANENT 6 0 wStorePB
      ⟨"bv", 5000000000⟩).2.1 (by decide)).1
  · have hh := ((notify_exactly_once_amended ("/b") ("v") PERMANENT 6 0 wStorePB
      ⟨"bv", 5000000000⟩).2.1 (by decide)).2
    rw [hh]
    decide

/-- C8: when the envelope of a Set that does not degrade to a past-expiration
Delete, or of a Delete, cannot be JSON-encoded, the serialization error is
surfaced (the result is not ok) while the operation's map mutation is not
rolled back: the Set's inserted or replaced node is still in the map and the
Delete's removal has still happened. -/
theorem serialization_error_no_rollback (key value : String) (t : Time) (index : Nat)
    (now : Time) (st : Store) :
    (¬ (t ≠ PERMANENT ∧ t - now < 0) → (Set key value t index now st).ok = false →
      (Set key value t index now st).store.nodes =
        insertN st.nodes (pathClean key) ⟨value, t⟩ ∧
      lookupN (Set key value t index now st).store.nodes (pathClean key) =
        some ⟨value, t⟩) ∧
    ((Delete key index st).ok = false →
      (Delete key index st).store.nodes = eraseN st.nodes (pathClean key) ∧
      lookupN (Delete key index st).store.nodes (pathClean key) = none) := by
  constructor
  · intro hnd _
    cases hl : lookupN st.nodes (pathClean key) with
    | some nd =>
        rw [Set_present key value t index now st nd hnd hl, finishMut_store]
        refine ⟨rfl, ?_⟩
        show lookupN (insertN st.nodes (pathClean key) ⟨value, t⟩) (pathClean key) =
          some ⟨value, t⟩
        rw [lookupN_insertN, if_pos rfl]
    | none =>
        rw [Set_absent key value t index now st hnd hl, finishMut_store]
        refine ⟨rfl, ?_⟩
        show lookupN (insertN st.nodes (pathClean key) ⟨value, t⟩) (pathClean key) =
          some ⟨value, t⟩
        rw [lookupN_insertN, if_pos rfl]
  · intro hok
    cases hl : lookupN st.nodes (pathClean key) with
    | some nd =>
        rw [Delete_present key index st nd hl, finishMut_store]
        refine ⟨rfl, ?_⟩
        show lookupN (eraseN st.nodes (pathClean key)) (pathClean key) = none
        rw [lookupN_eraseN, if_pos rfl]
    | none =>
        rw [Delete_absent key index st hl] at hok
        simp at hok

/-- Witness for C8 at a concrete input: a Set whose expiration lies beyond
the marshallable year range surfaces the error, yet the node is in the map;
deleting it then also surfaces the error, yet the node is gone. -/
theorem serialization_error_no_rollback_witness :
    ¬ ((farFuture : Time) ≠ PERMANENT ∧ farFuture - 0 < 0) ∧
    (Set ("/f") ("v") farFuture 1 0 createStore).ok = false ∧
    lookupN (Set ("/f") ("v") farFuture 1 0 createStore).store.nodes
      (pathClean ("/f")) = some ⟨"v", farFuture⟩ := by
  refine ⟨by decide, by decide, ?_⟩
  exact ((serialization_error_no_rollback ("/f") ("v") farFuture 1 0
    createStore).1 (by decide) (by decide)).2

/-- C4: clean — the cleanup step Recovery runs after rehydration — leaves
every permanent node untouched and starts no task for it; it drops every
volatile node whose remaining time to live at that instant is below the
one-second threshold; and it keeps every other volatile node while starting a
fresh control handle and expire task for its stored expiration instant (the
task recomputes its countdown from the then-current clock). -/
theorem clean_volatile_threshold (now : Time) (st : Store) (k : String) (n : Node)
    (hnd : (keysOf st.nodes).Nodup) (h : lookupN st.nodes k = some n) :
    (n.expireTime = PERMANENT →
      lookupN (clean now st).1.nodes k = some n ∧
      Event.spawn k n.expireTime ∉ (clean now st).2) ∧
    (n.expireTime ≠ PERMANENT → n.expireTime - now < second →
      lookupN (clean now st).1.nodes k = none) ∧
    (n.expireTime ≠ PERMANENT → second ≤ n.expireTime - now →
      lookupN (clean now st).1.nodes k = some n ∧
      Event.spawn k n.expireTime ∈ (clean now st).2) := by
  have hlook : ∀ b : Bool, keepNode now n = b →
      lookupN (clean now st).1.nodes k = (if b then some n else none) := by
    intro b hb
    show lookupN (st.nodes.filter (fun kn => keepNode now kn.2)) k = _
    rw [lookupN_filter st.nodes _ k hnd, h]
    show (if keepNode now n then some n else none) = _
    rw [hb]
  refine ⟨?_, ?_, ?_⟩
  · intro hperm
    constructor
    · rw [hlook true (by simp [keepNode, hperm])]
      rfl
    · intro hmem
      have hmem2 : Event.spawn k n.expireTime ∈
          (st.nodes.filter
            (fun kn => decide (kn.2.expireTime ≠ PERMANENT) && keepNode now kn.2)).map
            (fun kn => Event.spawn kn.1 kn.2.expireTime) := hmem
      obtain ⟨kn, hknmem, heq⟩ := List.mem_map.mp hmem2
      simp only [Event.spawn.injEq] at heq
      have hcond := List.of_mem_filter hknmem
      have hknin := List.mem_of_mem_filter hknmem
      have hlk : lookupN st.nodes kn.1 = some kn.2 := lookupN_eq_of_mem st.nodes kn hknin hnd
      rw [heq.1, h] at hlk
      have hkn2 : kn.2 = n := Option.some_inj.mp hlk.symm
      rw [hkn2] at hcond
      simp only [Bool.and_eq_true, decide_eq_true_eq] at hcond
      exact hcond.1 hperm
  · intro hvol hshort
    have hb : keepNode now n = false := by
      have hd1 : decide (n.expireTime = PERMANENT) = false := decide_eq_false hvol
      have hd2 : decide (second ≤ n.expireTime - now) = false :=
        decide_eq_false (not_le.mpr hshort)
      simp [keepNode, hd1, hd2]
    rw [hlook false hb]
    rfl
  · intro hvol hlong
    have hb : keepNode now n = true := by
      simp [keepNode, hvol, hlong]
    constructor
    · rw [hlook true hb]
      rfl
    · show Event.spawn k n.expireTime ∈
        (st.nodes.filter
          (fun kn => decide (kn.2.expireTime ≠ PERMANENT) && keepNode now kn.2)).map
          (fun kn => Event.spawn kn.1 kn.2.expireTime)
      refine List.mem_map.mpr ⟨(k, n), ?_, rfl⟩
      refine List.mem_filter.mpr ⟨mem_of_lookupN st.nodes k n h, ?_⟩
      simp [keepNode, hvol, hlong]

/-- Witness for C4 at a concrete input: in the concrete store the permanent
node survives cleanup with no spawn, and the volatile node with five seconds
of life survives with a spawn event. -/
theorem clean_volatile_threshold_witness :
    (keysOf wStorePB.nodes).Nodup ∧
    lookupN wStorePB.nodes ("/b") = some ⟨"bv", 5000000000⟩ ∧
    lookupN (clean 0 wStorePB).1.nodes ("/b") = some ⟨"bv", 5000000000⟩ ∧
    Event.spawn ("/b") 5000000000 ∈ (clean 0 wStorePB).2 := by
  have hc := (clean_volatile_threshold 0 wStorePB ("/b") ⟨"bv", 5000000000⟩
    (by decide) (by decide)).2.2 (by decide) (by decide)
  exact ⟨by decide, by decide, hc.1, hc.2⟩

/-- C2 counterexample: the store holding only key /a, expiring at instant
500000000, saves successfully, yet recovering that snapshot into an empty
store at instant 0 — with the node's expiration still half a second in the
future, so nothing expired during the round trip — yields a map without the
key: a premature deletion the claim rules out. -/
theorem recovery_roundtrip_cex :
    Save cexStoreShort = Except.ok cexStoreShort.nodes ∧
    lookupN cexStoreShort.nodes ("/a") = some ⟨"v", 500000000⟩ ∧
    (0 : Time) < 500000000 ∧
    lookupN (Recovery cexStoreShort.nodes 0 createStore).1.nodes ("/a") = none := by
  refine ⟨rfl, by decide, by decide, by decide⟩

/-- C2 (amended): Save followed immediately by Recovery into an empty store
reproduces exactly those entries of the saved map — same keys, values and
expiration instants — whose nodes are permanent or still have at least one
second of remaining life at the recovery instant; every other entry, the
expired ones and also the not-yet-expired ones with under one second left, is
absent afterwards. -/
theorem recovery_roundtrip_amended (st : Store) (now : Time)
    (snap : List (String × Node)) (hnd : (keysOf st.nodes).Nodup)
    (hs : Save st = Except.ok snap) :
    ∀ k : String,
      lookupN (Recovery snap now createStore).1.nodes k =
        match lookupN st.nodes k with
        | some n => if keepNode now n then some n else none
        | none => none := by
  have hsnap : snap = st.nodes := by
    unfold Save at hs
    by_cases hall : st.nodes.all (fun kn => timeMarshalOk kn.2.expireTime)
    · rw [if_pos hall] at hs
      exact (Except.ok.inj hs).symm
    · rw [if_neg hall] at hs
      exact absurd hs (by simp)
  subst hsnap
  intro k
  show lookupN ((mergeSnap [] st.nodes).filter (fun kn => keepNode now kn.2)) k = _
  rw [mergeSnap_nil_left st.nodes hnd,
      lookupN_filter st.nodes (fun kn => keepNode now kn.2) k hnd]

/-- Witness for C2 at a concrete input: the saved concrete store recovers
with its permanent key intact. -/
theorem recovery_roundtrip_amended_witness :
    (keysOf wStorePB.nodes).Nodup ∧
    Save wStorePB = Except.ok wStorePB.nodes ∧
    lookupN (Recovery wStorePB.nodes 0 createStore).1.nodes ("/p") =
      some ⟨"pv", PERMANENT⟩ := by
  refine ⟨by decide, rfl, ?_⟩
  have hh := recovery_roundtrip_amended wStorePB 0 wStorePB.nodes (by decide)
    rfl ("/p")
  rw [hh]
  decide

/-- C3 counterexample: recovering the snapshot that mentions only /new into a
store already holding the permanent key /old leaves /old in the map: the
post-recovery key set is not determined by the snapshot alone, and a key
present only in the pre-recovery map survives. -/
theorem recovery_merge_cex :
    lookupN snapNew ("/old") = none ∧
    lookupN (Recovery snapNew 0 preStoreOld).1.nodes ("/old") = some ⟨"x", PERMANENT⟩ ∧
    lookupN (Recovery snapNew 0 preStoreOld).1.nodes ("/new") = some ⟨"y", PERMANENT⟩ := by
  refine ⟨by decide, by decide, by decide⟩

/-- C3 (amended): Recovery does not replace the map wholesale — unmarshalling
into the store's non-nil map merges — so after Recovery each key holds the
snapshot's node if the snapshot mentions the key and otherwise its
pre-recovery node, in both cases subject to the cleanup filter; in
particular every pre-existing permanent key absent from the snapshot
survives. -/
theorem recovery_merge_amended (snap : List (String × Node)) (now : Time) (st : Store)
    (hsnap : (keysOf snap).Nodup) (hst : (keysOf st.nodes).Nodup) :
    (∀ k, lookupN (Recovery snap now st).1.nodes k =
      match (match lookupN snap k with
             | some n => some n
             | none => lookupN st.nodes k) with
      | some n => if keepNode now n then some n else none
      | none => none) ∧
    (∀ k n, lookupN snap k = none → lookupN st.nodes k = some n →
      n.expireTime = PERMANENT →
      lookupN (Recovery snap now st).1.nodes k = some n) := by
  have hmerged : (keysOf (mergeSnap st.nodes snap)).Nodup :=
    nodupKeys_mergeSnap snap st.nodes hst
  have hmain : ∀ k, lookupN (Recovery snap now st).1.nodes k =
      match (match lookupN snap k with
             | some n => some n
             | none => lookupN st.nodes k) with
      | some n => if keepNode now n then some n else none
      | none => none := by
    intro k
    show lookupN ((mergeSnap st.nodes snap).filter (fun kn => keepNode now kn.2)) k = _
    rw [lookupN_filter (mergeSnap st.nodes snap) (fun kn => keepNode now kn.2) k hmerged,
        lookupN_mergeSnap snap st.nodes k hsnap]
  refine ⟨hmain, ?_⟩
  intro k n hks hkst hperm
  rw [hmain k]
  simp only [hks, hkst]
  simp [keepNode, hperm]

/-- Witness for C3 at a concrete input: the pre-existing permanent key /old,
absent from the snapshot, survives the recovery. -/
theorem recovery_merge_amended_witness :
    (keysOf snapNew).Nodup ∧ (keysOf preStoreOld.nodes).Nodup ∧
    lookupN (Recovery snapNew 5 preStoreOld).1.nodes ("/old") =
      some ⟨"x", PERMANENT⟩ := by
  refine ⟨by decide, by decide, ?_⟩
  exact (recovery_merge_amended snapNew 5 preStoreOld (by decide) (by decide)).2
    ("/old") ⟨"x", PERMANENT⟩ (by decide) (by decide) (by decide)

end EtcdStore
